import Mathlib

/-!
A verification development for the PLYMI "Basic and Advanced Indexing" notebook
(src/PLYMI/Module3/BasicIndexing.ipynb).  The notebook explains the indexing
semantics of a NumPy-style n-dimensional array library: basic indexing
(integers, slices, Ellipsis, newaxis) yields strided views of the underlying
buffer, advanced indexing (integer lists, boolean masks) yields copies, and
in-place assignment / augmented assignment / `out=` write through views.

The array library itself is not part of the repository, so its operations are
modelled from the notebook's own descriptions: arrays are strided views into
buffers held by an explicit heap, element values are integers, and every
operation is an executable function on heaps and views.
-/

namespace BasicIndexing

/-- Modelled from the spec: the memory backing all arrays.  Each NumPy array
references an underlying data buffer; the heap is the list of all allocated
buffers, and a buffer is a flat list of element values. -/
structure Heap where
  bufs : List (List Int)
deriving DecidableEq

/-- Modelled from the spec: an n-dimensional array.  It references an
underlying buffer (`buf`, an index into the heap) together with an offset,
a shape, and per-axis strides; the element at multi-index `(i₀, …, i_{k-1})`
lives at flat address `offset + Σ iⱼ * stridesⱼ` in the buffer.  A view of an
array is simply another `NDArray` value with the same `buf`. -/
structure NDArray where
  buf : Nat
  offset : Int
  shape : List Nat
  strides : List Int
deriving DecidableEq

/-- Modelled from the spec: the objects that may appear in a basic index —
integers, slice objects (with optional start/stop/step), `Ellipsis`, and
`numpy.newaxis`.  A basic index is a tuple (here: a list) of these. -/
inductive IndexItem where
  | int (i : Int)
  | slice (start stop step : Option Int)
  | ellipsis
  | newaxis
deriving DecidableEq

/-- Modelled from the spec: indexing either returns a single number (when
every axis is consumed by an integer) or an array view. -/
inductive Result where
  | scalar (v : Int)
  | view (a : NDArray)
deriving DecidableEq

/-- The full slice `:`, i.e. `slice(None, None, None)`. -/
def fullSlice : IndexItem := .slice none none none

/-- Read the value at flat address `a` of buffer `b` (0 when out of range). -/
def readAddr (h : Heap) (b : Nat) (a : Int) : Int :=
  if a < 0 then 0 else (h.bufs.getD b []).getD a.toNat 0

/-- Write value `x` at flat address `a` of buffer `b` (no-op out of range). -/
def writeAddr (h : Heap) (b : Nat) (a : Int) (x : Int) : Heap :=
  if a < 0 then h
  else ⟨h.bufs.set b ((h.bufs.getD b []).set a.toNat x)⟩

/-- Sequentially write address/value pairs into buffer `b`. -/
def writeList (h : Heap) (b : Nat) : List (Int × Int) → Heap
  | [] => h
  | (a, x) :: rest => writeList (writeAddr h b a x) b rest

/-- Modelled from the spec: resolution of a slice against an axis of length
`d`, following the host language's slice semantics: `None` fields get their
defaults, negative endpoints count from the end, endpoints are clamped, and
the result is the normalized start, the number of selected indices, and the
step. -/
def resolveSlice (sta sto ste : Option Int) (d : Nat) : Int × Nat × Int :=
  let step := ste.getD 1
  if step = 0 then (0, 0, 1)
  else if 0 < step then
    let start := match sta with
      | none => 0
      | some i => if i < 0 then max (i + d) 0 else min i (d : Int)
    let stop := match sto with
      | none => (d : Int)
      | some i => if i < 0 then max (i + d) 0 else min i (d : Int)
    (start, if start < stop then ((stop - start - 1).ediv step + 1).toNat else 0, step)
  else
    let start := match sta with
      | none => (d : Int) - 1
      | some i => if i < 0 then max (i + d) (-1) else min i ((d : Int) - 1)
    let stop := match sto with
      | none => -1
      | some i => if i < 0 then max (i + d) (-1) else min i ((d : Int) - 1)
    (start, if stop < start then ((stop - start + 1).ediv step + 1).toNat else 0, step)

/-- Does this index entry consume an axis of the array? Integers and slices
do; `Ellipsis` and `newaxis` do not. -/
def consumesAxis : IndexItem → Bool
  | .int _ => true
  | .slice _ _ _ => true
  | .ellipsis => false
  | .newaxis => false

/-- Is this index entry an `Ellipsis`? -/
def isEllipsis : IndexItem → Bool
  | .ellipsis => true
  | _ => false

/-- Replace the first `Ellipsis` of the index by `n` full slices. -/
def expandEllipsis : List IndexItem → Nat → List IndexItem
  | [], _ => []
  | .ellipsis :: rest, n => List.replicate n fullSlice ++ rest
  | it :: rest, n => it :: expandEllipsis rest n

/-- Modelled from the spec: normalize an index for an array of `ndim`
dimensions — the single `Ellipsis` (if any) expands to as many full slices as
needed, and otherwise trailing full slices are filled in. -/
def expandIx (ix : List IndexItem) (ndim : Nat) : List IndexItem :=
  let nc := ix.countP consumesAxis
  if ix.countP isEllipsis = 1 then expandEllipsis ix (ndim - nc)
  else ix ++ List.replicate (ndim - nc) fullSlice

/-- Modelled from the spec: walk an (ellipsis-free) index along the shape and
strides of an array, producing the extra offset and the shape and strides of
the selected region.  An integer selects a position along its axis and drops
the axis, a slice keeps the axis (rescaling the stride by the step), and
`newaxis` inserts a size-1 axis.  Out-of-range integers and leftover entries
give `none` (an IndexError). -/
def applyItems : List IndexItem → List Nat → List Int → Option (Int × List Nat × List Int)
  | [], ds, ss => some (0, ds, ss)
  | .int i :: rest, d :: ds, s :: ss =>
    let i' := if i < 0 then i + d else i
    if 0 ≤ i' ∧ i' < d then
      (applyItems rest ds ss).map (fun t => (i' * s + t.1, t.2.1, t.2.2))
    else none
  | .slice sta sto ste :: rest, d :: ds, s :: ss =>
    let r := resolveSlice sta sto ste d
    (applyItems rest ds ss).map
      (fun t => (r.1 * s + t.1, r.2.1 :: t.2.1, s * r.2.2 :: t.2.2))
  | .newaxis :: rest, ds, ss =>
    (applyItems rest ds ss).map (fun t => (t.1, 1 :: t.2.1, 0 :: t.2.2))
  | _, _, _ => none

/-- Package the offset/shape/strides produced by `applyItems`: an empty
result shape means every axis was consumed by an integer, so a single number
is read out of the buffer; otherwise the result is a view into the same
buffer. -/
def mkResult (h : Heap) (v : NDArray) : Int × List Nat × List Int → Result
  | (off, [], []) => .scalar (readAddr h v.buf (v.offset + off))
  | (off, sh, st) => .view ⟨v.buf, v.offset + off, sh, st⟩

/-- Modelled from the spec: basic indexing, `x[index]` for `index` a tuple of
integers, slices, `Ellipsis` and `newaxis` objects.  At most one `Ellipsis`
is allowed and at most `ndim` axes may be consumed; the result is a view of
the same underlying buffer, or a single number when the result shape is
empty.  No data is copied and the heap is untouched. -/
def getItem (h : Heap) (v : NDArray) (ix : List IndexItem) : Option Result :=
  if 1 < ix.countP isEllipsis ∨ v.shape.length < ix.countP consumesAxis then none
  else (applyItems (expandIx ix v.shape.length) v.shape v.strides).map (mkResult h v)

/-- All multi-indices of a shape, enumerated in row-major order. -/
def allIdx : List Nat → List (List Nat)
  | [] => [[]]
  | d :: ds => (List.range d).flatMap (fun i => (allIdx ds).map (i :: ·))

/-- The flat-address contribution of a multi-index under given strides. -/
def dotProd : List Nat → List Int → Int
  | i :: is, s :: ss => (i : Int) * s + dotProd is ss
  | _, _ => 0

/-- Number of elements of an array. -/
def NDArray.size (v : NDArray) : Nat := v.shape.prod

/-- The flat addresses of an array's elements, in row-major order. -/
def NDArray.addrList (v : NDArray) : List Int :=
  (allIdx v.shape).map (fun idx => v.offset + dotProd idx v.strides)

/-- The element values of an array, in row-major order. -/
def toFlat (h : Heap) (v : NDArray) : List Int :=
  v.addrList.map (readAddr h v.buf)

/-- The row-major (C-contiguous) strides of a freshly allocated array of the
given shape. -/
def contigStrides : List Nat → List Int
  | [] => []
  | _ :: ds => (ds.prod : Int) :: contigStrides ds

/-- Modelled from the spec: `np.array(...)` and every other operation that
creates a distinct array allocate a fresh buffer on the heap; the new array
is C-contiguous over that buffer. -/
def npAlloc (h : Heap) (data : List Int) (shape : List Nat) : Heap × NDArray :=
  (⟨h.bufs ++ [data]⟩, ⟨h.bufs.length, 0, shape, contigStrides shape⟩)

/-- Modelled from the spec: `numpy.shares_memory` determines whether two
arrays refer to the same underlying data, i.e. reference the same buffer. -/
def sharesMemory (a b : NDArray) : Bool := a.buf == b.buf

/-- Memory sharing at the `Result` level: a single number extracted by basic
indexing is not a view and never shares memory with any array. -/
def sharesMemoryR : Result → Result → Bool
  | .view a, .view b => sharesMemory a b
  | _, _ => false

/-- Modelled from the spec: write a row-major list of values through a view,
updating the view's buffer in place at the view's addresses. -/
def writeView (h : Heap) (v : NDArray) (vals : List Int) : Heap :=
  writeList h v.buf (v.addrList.zip vals)

/-- Broadcast the right-hand side of an assignment to the size of the target
view: an exact-size list is used as is, and a single value is replicated. -/
def broadcastTo (vals : List Int) (n : Nat) : List Int :=
  if vals.length = n then vals else List.replicate n (vals.getD 0 0)

/-- Modelled from the spec: the in-place assignment `x[index] = vals` —
basic indexing selects a view, and the values are written through that view
into the underlying buffer. -/
def setItem (h : Heap) (v : NDArray) (ix : List IndexItem) (vals : List Int) : Heap :=
  match getItem h v ix with
  | some (.view w) => writeView h w (broadcastTo vals w.size)
  | _ => h

/-- Modelled from the spec: an augmented assignment such as `c *= k` updates
the underlying data referenced by `c` in place, element by element. -/
def augMulScalar (h : Heap) (v : NDArray) (k : Int) : Heap :=
  writeView h v ((toFlat h v).map (· * k))

/-- Modelled from the spec: the long-form counterpart `b * k` creates a
distinct array in a fresh buffer. -/
def npMulScalar (h : Heap) (v : NDArray) (k : Int) : Heap × NDArray :=
  npAlloc h ((toFlat h v).map (· * k)) v.shape

/-- Modelled from the spec: a NumPy elementwise mathematical function with
value map `f`.  With `out = some o` the result is written into the
caller-supplied buffer view `o`; with `out = none` a distinct array is
allocated and the input data is unaffected. -/
def npUfunc (f : Int → Int) (h : Heap) (v : NDArray) (out : Option NDArray) :
    Heap × NDArray :=
  match out with
  | some o => (writeView h o ((toFlat h v).map f), o)
  | none => npAlloc h ((toFlat h v).map f) v.shape

/-- Modelled from the spec: `numpy.copy` creates a distinct copy of an array
in a fresh buffer, so that it no longer shares memory with any other array. -/
def npCopy (h : Heap) (v : NDArray) : Heap × NDArray :=
  npAlloc h (toFlat h v) v.shape

/-- The sub-view `v[i]` selecting row `i` along the first axis. -/
def subViewRow (v : NDArray) (i : Int) : Option NDArray :=
  match v.shape, v.strides with
  | d :: ds, s :: ss =>
    let i' := if i < 0 then i + d else i
    if 0 ≤ i' ∧ i' < d then some ⟨v.buf, v.offset + i' * s, ds, ss⟩ else none
  | _, _ => none

/-- Apply an option-valued function to every element, succeeding only when
every application succeeds. -/
def mapOptList (f : α → Option β) : List α → Option (List β)
  | [] => some []
  | a :: as =>
    match f a, mapOptList f as with
    | some b, some bs => some (b :: bs)
    | _, _ => none

/-- Modelled from the spec: advanced indexing with a list of integers,
`x[[i₁, …, i_k]]`.  Each integer selects a row along axis 0; the selected
rows are copied into a freshly allocated buffer, so the result never shares
memory with `x`. -/
def advIntIndex (h : Heap) (v : NDArray) (ixs : List Int) :
    Option (Heap × NDArray) :=
  if v.shape.length = 0 then none
  else
    (mapOptList (subViewRow v) ixs).map (fun rows =>
      npAlloc h ((rows.map (toFlat h)).flatten) (ixs.length :: v.shape.tail))

/-- Modelled from the spec: advanced indexing with a boolean mask computed
elementwise from the array itself, `x[p(x)]` (e.g. `x[x < 0]`).  The selected
elements are copied in row-major order into a freshly allocated 1-dimensional
array. -/
def advBoolIndex (h : Heap) (v : NDArray) (p : Int → Bool) : Heap × NDArray :=
  let data := (toFlat h v).filter p
  npAlloc h data [data.length]

/-- The function `add_3` from the notebook: it copies its input, augments the
copy in place by 3, and returns the copy, leaving the caller's array
untouched. -/
def add_3 (h : Heap) (x : NDArray) : Heap × NDArray :=
  let hc := npCopy h x
  (writeView hc.1 hc.2 ((toFlat hc.1 hc.2).map (· + 3)), hc.2)

/-- Extract the view from an indexing result (a degenerate empty view when
the result is not a view). -/
def viewOf : Option Result → NDArray
  | some (.view w) => w
  | _ => ⟨0, 0, [], []⟩

/-! ### Lemmas about the heap primitives -/

theorem getD_set_list (l : List Int) (i j : Nat) (x d : Int) :
    (l.set i x).getD j d = if i = j ∧ i < l.length then x else l.getD j d := by
  simp only [List.getD_eq_getElem?_getD, List.getElem?_set]
  by_cases hij : i = j
  · subst hij
    by_cases hlt : i < l.length
    · simp [hlt]
    · have h1 : l[i]? = none := List.getElem?_eq_none (by omega)
      simp [hlt, h1]
  · simp [hij]

theorem getD_bufs_writeAddr (h : Heap) (b : Nat) (a x : Int) (b' : Nat) :
    (writeAddr h b a x).bufs.getD b' [] =
      if 0 ≤ a ∧ b' = b then (h.bufs.getD b []).set a.toNat x
      else h.bufs.getD b' [] := by
  unfold writeAddr
  split
  · rename_i hneg
    rw [if_neg]
    rintro ⟨h0, -⟩
    omega
  · rename_i hpos
    show (h.bufs.set b ((h.bufs.getD b []).set a.toNat x)).getD b' [] = _
    simp only [List.getD_eq_getElem?_getD, List.getElem?_set]
    by_cases hb : b' = b
    · subst hb
      by_cases hlt : b' < h.bufs.length
      · simp [hlt, Int.not_lt.mp hpos]
      · have h1 : h.bufs[b']? = none := List.getElem?_eq_none (by omega)
        have h2 : h.bufs[b']?.getD [] = ([] : List Int) := by rw [h1]; rfl
        simp [hlt, Int.not_lt.mp hpos, h1, h2]
    · simp [hb, Ne.symm hb]

theorem length_getD_bufs_writeAddr (h : Heap) (b : Nat) (a x : Int) (b' : Nat) :
    ((writeAddr h b a x).bufs.getD b' []).length = (h.bufs.getD b' []).length := by
  rw [getD_bufs_writeAddr]
  split
  · rename_i hc
    rw [hc.2, List.length_set]
  · rfl

theorem readAddr_writeAddr (h : Heap) (b : Nat) (a x : Int) (b' : Nat) (a' : Int) :
    readAddr (writeAddr h b a x) b' a' =
      if b' = b ∧ a' = a ∧ 0 ≤ a ∧ a.toNat < (h.bufs.getD b []).length then x
      else readAddr h b' a' := by
  unfold readAddr
  by_cases hneg : a' < 0
  · simp only [if_pos hneg]
    rw [if_neg]
    rintro ⟨-, rfl, h0, -⟩
    omega
  · simp only [if_neg hneg]
    rw [getD_bufs_writeAddr]
    by_cases hba : 0 ≤ a ∧ b' = b
    · obtain ⟨h0, rfl⟩ := hba
      rw [if_pos ⟨h0, rfl⟩, getD_set_list]
      by_cases hC : b' = b' ∧ a' = a ∧ 0 ≤ a ∧ a.toNat < (h.bufs.getD b' []).length
      · obtain ⟨-, rfl, -, hbd⟩ := hC
        rw [if_pos ⟨rfl, hbd⟩, if_pos ⟨rfl, rfl, h0, hbd⟩]
      · rw [if_neg hC, if_neg]
        rintro ⟨heq, hbd⟩
        exact hC ⟨rfl, by omega, h0, heq ▸ hbd⟩
    · rw [if_neg hba, if_neg]
      rintro ⟨rfl, rfl, h0, -⟩
      exact hba ⟨h0, rfl⟩

theorem length_getD_bufs_writeList (h : Heap) (b : Nat) (ps : List (Int × Int))
    (b' : Nat) :
    ((writeList h b ps).bufs.getD b' []).length = (h.bufs.getD b' []).length := by
  induction ps generalizing h with
  | nil => rfl
  | cons q rest ih =>
    obtain ⟨a, x⟩ := q
    rw [writeList, ih, length_getD_bufs_writeAddr]

theorem readAddr_writeList_of_ne_buf (h : Heap) (b : Nat) (ps : List (Int × Int))
    (b' : Nat) (a : Int) (hb : b' ≠ b) :
    readAddr (writeList h b ps) b' a = readAddr h b' a := by
  induction ps generalizing h with
  | nil => rfl
  | cons q rest ih =>
    obtain ⟨a', x⟩ := q
    rw [writeList, ih, readAddr_writeAddr, if_neg]
    rintro ⟨rfl, -⟩
    exact hb rfl

theorem readAddr_writeList_of_not_mem (h : Heap) (b : Nat) (ps : List (Int × Int))
    (a : Int) (ha : a ∉ ps.map Prod.fst) :
    readAddr (writeList h b ps) b a = readAddr h b a := by
  induction ps generalizing h with
  | nil => rfl
  | cons q rest ih =>
    obtain ⟨a', x⟩ := q
    simp only [List.map_cons, List.mem_cons, not_or] at ha
    rw [writeList, ih _ ha.2, readAddr_writeAddr, if_neg]
    rintro ⟨-, rfl, -⟩
    exact ha.1 rfl

theorem map_readAddr_writeList (h : Heap) (b : Nat) (ps : List (Int × Int))
    (hnd : (ps.map Prod.fst).Nodup)
    (hbd : ∀ q ∈ ps, 0 ≤ q.1 ∧ q.1.toNat < (h.bufs.getD b []).length) :
    (ps.map Prod.fst).map (readAddr (writeList h b ps) b) = ps.map Prod.snd := by
  induction ps generalizing h with
  | nil => rfl
  | cons q rest ih =>
    obtain ⟨a, x⟩ := q
    simp only [List.map_cons, List.nodup_cons] at hnd ⊢
    have hbd0 := hbd (a, x) (List.mem_cons_self _ _)
    rw [List.cons_eq_cons]
    refine ⟨?_, ?_⟩
    · rw [writeList, readAddr_writeList_of_not_mem _ _ _ _ hnd.1,
        readAddr_writeAddr,
        if_pos ⟨rfl, rfl, hbd0.1, (length_getD_bufs_writeAddr h b a x b) ▸ hbd0.2⟩]
    · rw [writeList]
      apply ih _ hnd.2
      intro q hq
      have hq' := hbd q (List.mem_cons_of_mem _ hq)
      rw [length_getD_bufs_writeAddr]
      exact hq'

/-! ### Lemmas about views, writes and allocation -/

/-- A view whose addresses are pairwise distinct and in bounds for its
buffer; every array produced by `npAlloc` is valid, and writing through a
valid view then reading it back recovers the written values. -/
def ValidView (h : Heap) (v : NDArray) : Prop :=
  v.addrList.Nodup ∧
    ∀ a ∈ v.addrList, 0 ≤ a ∧ a.toNat < (h.bufs.getD v.buf []).length

instance (h : Heap) (v : NDArray) : Decidable (ValidView h v) := by
  unfold ValidView; infer_instance

theorem length_toFlat (h : Heap) (v : NDArray) :
    (toFlat h v).length = v.addrList.length := by
  simp [toFlat]

theorem toFlat_writeView_self (h : Heap) (v : NDArray) (vals : List Int)
    (hval : ValidView h v) (hlen : vals.length = v.addrList.length) :
    toFlat (writeView h v vals) v = vals := by
  have hfst : (v.addrList.zip vals).map Prod.fst = v.addrList :=
    List.map_fst_zip _ _ (by omega)
  have hsnd : (v.addrList.zip vals).map Prod.snd = vals :=
    List.map_snd_zip _ _ (by omega)
  have := map_readAddr_writeList h v.buf (v.addrList.zip vals)
    (by rw [hfst]; exact hval.1)
    (by
      intro q hq
      exact hval.2 q.1 (List.of_mem_zip hq).1)
  rw [hfst, hsnd] at this
  exact this

theorem toFlat_writeView_of_ne_buf (h : Heap) (w : NDArray) (vals : List Int)
    (v : NDArray) (hb : v.buf ≠ w.buf) :
    toFlat (writeView h w vals) v = toFlat h v := by
  unfold toFlat writeView
  apply List.map_congr_left
  intro a _
  exact readAddr_writeList_of_ne_buf _ _ _ _ _ hb

theorem readAddr_alloc_old (h : Heap) (data : List Int) (b : Nat) (a : Int)
    (hb : b < h.bufs.length) :
    readAddr ⟨h.bufs ++ [data]⟩ b a = readAddr h b a := by
  unfold readAddr
  simp [List.getD_eq_getElem?_getD, List.getElem?_append_left hb]

theorem toFlat_alloc_old (h : Heap) (data : List Int) (sh : List Nat)
    (v : NDArray) (hb : v.buf < h.bufs.length) :
    toFlat (npAlloc h data sh).1 v = toFlat h v := by
  unfold toFlat npAlloc
  apply List.map_congr_left
  intro a _
  exact readAddr_alloc_old h data v.buf a hb

theorem range_flatMap_mul (d p : Nat) :
    (List.range d).flatMap (fun i => (List.range p).map (fun j => i * p + j)) =
      List.range (d * p) := by
  induction d with
  | zero => simp
  | succ n ih =>
    rw [List.range_succ, List.flatMap_append, ih, Nat.succ_mul, List.range_add]
    simp [Nat.add_comm]

theorem allIdx_dot_contig (sh : List Nat) :
    (allIdx sh).map (fun idx => dotProd idx (contigStrides sh)) =
      (List.range sh.prod).map (fun n : Nat => (n : Int)) := by
  induction sh with
  | nil => decide
  | cons d ds ih =>
    have key : ∀ i : Nat,
        ((allIdx ds).map (i :: ·)).map
            (fun idx => dotProd idx (contigStrides (d :: ds))) =
          ((List.range ds.prod).map (fun j => i * ds.prod + j)).map
            (fun n : Nat => (n : Int)) := by
      intro i
      calc ((allIdx ds).map (i :: ·)).map
              (fun idx => dotProd idx (contigStrides (d :: ds)))
          = (allIdx ds).map
              (fun idx => (i : Int) * (ds.prod : Int) +
                dotProd idx (contigStrides ds)) := by
            rw [List.map_map]; rfl
        _ = ((allIdx ds).map (fun idx => dotProd idx (contigStrides ds))).map
              (fun z => (i : Int) * (ds.prod : Int) + z) := by
            rw [List.map_map]; rfl
        _ = ((List.range ds.prod).map (fun n : Nat => (n : Int))).map
              (fun z => (i : Int) * (ds.prod : Int) + z) := by rw [ih]
        _ = ((List.range ds.prod).map (fun j => i * ds.prod + j)).map
              (fun n : Nat => (n : Int)) := by
            rw [List.map_map, List.map_map]
            apply List.map_congr_left
            intro j _
            show (i : Int) * (ds.prod : Int) + (j : Int) =
              ((i * ds.prod + j : Nat) : Int)
            push_cast
            ring
    show ((List.range d).flatMap (fun i => (allIdx ds).map (i :: ·))).map
        (fun idx => dotProd idx (contigStrides (d :: ds))) = _
    rw [List.map_flatMap]
    have h2 : (fun i => ((allIdx ds).map (i :: ·)).map
          (fun idx => dotProd idx (contigStrides (d :: ds)))) =
        fun i => ((List.range ds.prod).map (fun j => i * ds.prod + j)).map
          (fun n : Nat => (n : Int)) := by
      funext i
      exact key i
    rw [h2]
    have h3 : ((List.range d).flatMap
          (fun i => ((List.range ds.prod).map (fun j => i * ds.prod + j)).map
            (fun n : Nat => (n : Int)))) =
        ((List.range d).flatMap
          (fun i => (List.range ds.prod).map (fun j => i * ds.prod + j))).map
          (fun n : Nat => (n : Int)) := by
      rw [List.map_flatMap]
    rw [h3, range_flatMap_mul, List.prod_cons]

theorem length_allIdx (sh : List Nat) : (allIdx sh).length = sh.prod := by
  induction sh with
  | nil => rfl
  | cons d ds ih =>
    rw [allIdx, List.length_flatMap, List.prod_cons]
    have h1 : (List.map (List.length ∘ fun i => (allIdx ds).map (i :: ·))
        (List.range d)) = List.map (fun _ => ds.prod) (List.range d) := by
      apply List.map_congr_left
      intro i _
      show ((allIdx ds).map (i :: ·)).length = ds.prod
      rw [List.length_map, ih]
    rw [h1, List.map_const', List.sum_replicate, smul_eq_mul, List.length_range]

theorem length_addrList (v : NDArray) : v.addrList.length = v.shape.prod := by
  rw [NDArray.addrList, List.length_map, length_allIdx]

theorem addrList_npAlloc (h : Heap) (data : List Int) (sh : List Nat) :
    (npAlloc h data sh).2.addrList =
      (List.range sh.prod).map (fun n : Nat => (n : Int)) := by
  show (allIdx sh).map (fun idx => 0 + dotProd idx (contigStrides sh)) = _
  have h1 : (fun idx => 0 + dotProd idx (contigStrides sh)) =
      fun idx => dotProd idx (contigStrides sh) := by
    funext idx
    rw [zero_add]
  rw [h1, allIdx_dot_contig]

theorem getD_range_self (l : List Int) :
    (List.range l.length).map (fun n => l.getD n 0) = l := by
  induction l with
  | nil => rfl
  | cons a l ih =>
    rw [List.length_cons, List.range_succ_eq_map, List.map_cons, List.map_map]
    have h1 : ((fun n => (a :: l).getD n 0) ∘ Nat.succ) = fun n => l.getD n 0 := by
      funext n; rfl
    rw [h1, ih]
    rfl

theorem getD_bufs_npAlloc_fresh (h : Heap) (data : List Int) (sh : List Nat) :
    (npAlloc h data sh).1.bufs.getD (npAlloc h data sh).2.buf [] = data := by
  show (h.bufs ++ [data]).getD h.bufs.length [] = data
  rw [List.getD_eq_getElem?_getD, List.getElem?_append_right (Nat.le_refl _),
    Nat.sub_self]
  rfl

theorem toFlat_npAlloc_self (h : Heap) (data : List Int) (sh : List Nat)
    (hlen : data.length = sh.prod) :
    toFlat (npAlloc h data sh).1 (npAlloc h data sh).2 = data := by
  rw [toFlat, addrList_npAlloc, List.map_map]
  have h1 : (readAddr (npAlloc h data sh).1 (npAlloc h data sh).2.buf ∘
        fun n : Nat => (n : Int)) = fun n : Nat => data.getD n 0 := by
    funext n
    show readAddr (npAlloc h data sh).1 (npAlloc h data sh).2.buf (n : Int) = _
    rw [readAddr, if_neg (by omega), getD_bufs_npAlloc_fresh, Int.toNat_natCast]
  rw [h1, ← hlen, getD_range_self]

theorem validView_npAlloc (h : Heap) (data : List Int) (sh : List Nat)
    (hlen : data.length = sh.prod) :
    ValidView (npAlloc h data sh).1 (npAlloc h data sh).2 := by
  constructor
  · rw [addrList_npAlloc]
    exact (List.nodup_range _).map (fun a b hab => by omega)
  · intro a ha
    rw [addrList_npAlloc] at ha
    obtain ⟨n, hn, rfl⟩ := List.mem_map.mp ha
    rw [List.mem_range] at hn
    rw [getD_bufs_npAlloc_fresh]
    refine ⟨by omega, ?_⟩
    rw [Int.toNat_natCast, hlen]
    exact hn

theorem buf_npAlloc_fresh (h : Heap) (data : List Int) (sh : List Nat) :
    (npAlloc h data sh).2.buf = h.bufs.length := rfl

/-! ### Structural lemmas about basic indexing -/

theorem mkResult_view_buf (h : Heap) (v : NDArray) (t : Int × List Nat × List Int)
    (r : NDArray) (hr : mkResult h v t = .view r) : r.buf = v.buf := by
  obtain ⟨off, sh, st⟩ := t
  match sh, st with
  | [], [] => exact absurd hr (by simp [mkResult])
  | [], s :: st => rw [show r = ⟨v.buf, v.offset + off, [], s :: st⟩ from
      (Result.view.injEq _ _).mp hr.symm]
  | d :: sh, [] => rw [show r = ⟨v.buf, v.offset + off, d :: sh, []⟩ from
      (Result.view.injEq _ _).mp hr.symm]
  | d :: sh, s :: st => rw [show r = ⟨v.buf, v.offset + off, d :: sh, s :: st⟩ from
      (Result.view.injEq _ _).mp hr.symm]

theorem getItem_view_buf (h : Heap) (v : NDArray) (ix : List IndexItem)
    (r : NDArray) (hr : getItem h v ix = some (.view r)) : r.buf = v.buf := by
  unfold getItem at hr
  split at hr
  · exact absurd hr (by simp)
  · obtain ⟨t, -, ht⟩ := Option.map_eq_some'.mp hr
    exact mkResult_view_buf h v t r ht

theorem mapOptList_some_length (f : α → Option β) (l : List α) (bs : List β)
    (hl : mapOptList f l = some bs) : bs.length = l.length := by
  induction l generalizing bs with
  | nil =>
    rw [mapOptList] at hl
    cases Option.some_inj.mp hl
    rfl
  | cons a as ih =>
    rw [mapOptList] at hl
    match hfa : f a, hrest : mapOptList f as with
    | some b, some bs' =>
      rw [hfa, hrest] at hl
      rw [← Option.some_inj.mp hl, List.length_cons, List.length_cons, ih bs' hrest]
    | some b, none => rw [hfa, hrest] at hl; exact absurd hl (by simp)
    | none, _ => rw [hfa] at hl; exact absurd hl (by simp)

theorem mapOptList_some_mem (f : α → Option β) (l : List α) (bs : List β)
    (hl : mapOptList f l = some bs) (b : β) (hb : b ∈ bs) :
    ∃ a ∈ l, f a = some b := by
  induction l generalizing bs with
  | nil =>
    rw [mapOptList] at hl
    rw [← Option.some_inj.mp hl] at hb
    exact absurd hb (List.not_mem_nil b)
  | cons a as ih =>
    rw [mapOptList] at hl
    match hfa : f a, hrest : mapOptList f as with
    | some b', some bs' =>
      rw [hfa, hrest] at hl
      rw [← Option.some_inj.mp hl] at hb
      rcases List.mem_cons.mp hb with hb | hb
      · exact ⟨a, List.mem_cons_self _ _, hb ▸ hfa⟩
      · obtain ⟨a', ha', hfa'⟩ := ih bs' hrest hb
        exact ⟨a', List.mem_cons_of_mem _ ha', hfa'⟩
    | some b', none => rw [hfa, hrest] at hl; exact absurd hl (by simp)
    | none, _ => rw [hfa] at hl; exact absurd hl (by simp)

theorem subViewRow_shape (v : NDArray) (i : Int) (w : NDArray)
    (hw : subViewRow v i = some w) :
    w.shape = v.shape.tail ∧ w.buf = v.buf := by
  obtain ⟨b, off, sh, st⟩ := v
  match sh, st with
  | [], st => exact absurd hw (by simp [subViewRow])
  | d :: ds, [] => exact absurd hw (by simp [subViewRow])
  | d :: ds, s :: ss =>
    unfold subViewRow at hw
    dsimp only at hw
    split at hw <;> split at hw <;>
      first
        | (cases Option.some_inj.mp hw; exact ⟨rfl, rfl⟩)
        | exact absurd hw (by simp)

theorem length_flatten_toFlat (h : Heap) (rows : List NDArray) (p : Nat)
    (hrow : ∀ w ∈ rows, (toFlat h w).length = p) :
    ((rows.map (toFlat h)).flatten).length = rows.length * p := by
  induction rows with
  | nil => simp
  | cons w ws ih =>
    rw [List.map_cons, List.flatten_cons, List.length_append,
      hrow w (List.mem_cons_self _ _),
      ih (fun w' hw' => hrow w' (List.mem_cons_of_mem _ hw')),
      List.length_cons]
    ring

/-! ### Concrete arrays from the notebook -/

/-- The shape-(3, 4) array `x` from the notebook's opening cells. -/
def xExample : Heap × NDArray :=
  npAlloc ⟨[]⟩ [-5, 2, 0, -7, -1, 9, 3, 8, -3, -3, 4, 6] [3, 4]

/-- An integer stand-in for the notebook's 3×3 array `z` (its float entries
scaled by 100). -/
def zExample : Heap × NDArray :=
  npAlloc ⟨[]⟩ [331, 471, 40, 21, 285, 321, -377, 453, -115] [3, 3]

/-- The array `a = np.array([0, 1, 2, 3, 4])` from the in-place assignment
cells. -/
def aExample : Heap × NDArray := npAlloc ⟨[]⟩ [0, 1, 2, 3, 4] [5]

/-- The view `b = a[:]` of `aExample`. -/
def bView : NDArray := viewOf (getItem aExample.1 aExample.2 [fullSlice])

/-- The heap after the in-place assignment `a[:] = np.array([0, -1, -2, -3, -4])`. -/
def aInPlace : Heap :=
  setItem aExample.1 aExample.2 [fullSlice] [0, -1, -2, -3, -4]

/-- The heap and array after the rebinding `a = np.array([0, -1, -2, -3, -4])`:
a fresh array is allocated and the name now references it. -/
def aRebound : Heap × NDArray := npAlloc aExample.1 [0, -1, -2, -3, -4] [5]

/-- The shape-(3, 4) array `a` of values 0..11 from the augmented-assignment
cells. -/
def a4Example : Heap × NDArray :=
  npAlloc ⟨[]⟩ [0, 1, 2, 3, 4, 5, 6, 7, 8, 9, 10, 11] [3, 4]

/-- The view `b = a[0]` of `a4Example`. -/
def b4View : NDArray := viewOf (getItem a4Example.1 a4Example.2 [.int 0])

/-- The view `c = a[0]` of `a4Example`. -/
def c4View : NDArray := viewOf (getItem a4Example.1 a4Example.2 [.int 0])

/-- The heap and array after the long-form update `b = b * -1`. -/
def b4Long : Heap × NDArray := npMulScalar a4Example.1 b4View (-1)

/-- The heap after the augmented assignment `c *= -2`. -/
def c4Aug : Heap := augMulScalar b4Long.1 c4View (-2)

/-- The shape-(3, 4) array `p` of values 0..11 from the sub-view assignment
cells. -/
def pExample : Heap × NDArray :=
  npAlloc ⟨[]⟩ [0, 1, 2, 3, 4, 5, 6, 7, 8, 9, 10, 11] [3, 4]

/-- The view `q = p[0, :]` of `pExample`. -/
def qView : NDArray := viewOf (getItem pExample.1 pExample.2 [.int 0, fullSlice])

/-- The heap after `p[0, ::2] = (-40, -50)` and `p[1:, 2:] = -1`. -/
def pAfter : Heap :=
  setItem
    (setItem pExample.1 pExample.2 [.int 0, .slice none none (some 2)] [-40, -50])
    pExample.2 [.slice (some 1) none none, .slice (some 2) none none] [-1]

/-- The array `x = np.array([0, 1, 2])` passed to `add_3` in the notebook. -/
def xSmall : Heap × NDArray := npAlloc ⟨[]⟩ [0, 1, 2] [3]

/-- Modelled from the spec: the bracket form with two index expressions,
`x[i, j]` — the host language packs the indices into the tuple `(i, j)` and
passes that tuple to the array's get-item mechanism. -/
def getItemMulti2 (h : Heap) (v : NDArray) (i j : IndexItem) : Option Result :=
  getItem h v [i, j]

/-- Modelled from the spec: the bracket form with three index expressions,
`x[i, j, k]` — the host language packs the indices into the tuple
`(i, j, k)` and passes that tuple to the array's get-item mechanism. -/
def getItemMulti3 (h : Heap) (v : NDArray) (i j k : IndexItem) : Option Result :=
  getItem h v [i, j, k]

/-! ### The claims -/

/-- C1: for every array `x` and every basic index (a tuple of integers,
slices, Ellipsis and newaxis objects), `x[index]` produces a view of `x`'s
underlying data without copying: whenever the result is an array, it shares
memory with `x`. -/
theorem c1_basic_indexing_yields_view (h : Heap) (v : NDArray)
    (ix : List IndexItem) (r : NDArray)
    (hr : getItem h v ix = some (.view r)) :
    sharesMemory r v = true := by
  rw [sharesMemory, getItem_view_buf h v ix r hr]
  exact beq_self_eq_true _

/-- Witness for C1: the notebook's `subarray = z[:, 0]` is an array result of
basic indexing, and it shares memory with `z`. -/
theorem c1_witness : sharesMemory ⟨0, 0, [3], [3]⟩ zExample.2 = true :=
  c1_basic_indexing_yields_view zExample.1 zExample.2 [fullSlice, .int 0]
    ⟨0, 0, [3], [3]⟩ (by decide)

/-- C3: assignment to the view `a[:]` mutates the shared data in place — `b`
sees the new values and still shares memory with `a` — while rebinding the
name `a` to a fresh array leaves `b` with the original values and no shared
memory. -/
theorem c3_view_assignment_vs_rebinding :
    (toFlat aInPlace bView = [0, -1, -2, -3, -4] ∧
     toFlat aInPlace aExample.2 = [0, -1, -2, -3, -4] ∧
     sharesMemory aExample.2 bView = true) ∧
    (toFlat aRebound.1 bView = [0, 1, 2, 3, 4] ∧
     sharesMemory aRebound.2 bView = false) := by
  decide

/-- C4: the augmented assignment `c *= -2` on the view `c = a[0]` updates the
underlying data in place — the change shows in `a` and `c` still shares
memory with `a` — while the long-form `b = b * -1` creates a distinct array,
leaves `a`'s data unchanged, and no longer shares memory with `a`. -/
theorem c4_augmented_assignment_in_place :
    (sharesMemory b4View a4Example.2 = true ∧
     sharesMemory c4View a4Example.2 = true) ∧
    (toFlat b4Long.1 b4Long.2 = [0, -1, -2, -3] ∧
     sharesMemory b4Long.2 a4Example.2 = false ∧
     toFlat b4Long.1 a4Example.2 = [0, 1, 2, 3, 4, 5, 6, 7, 8, 9, 10, 11]) ∧
    (toFlat c4Aug c4View = [0, -2, -4, -6] ∧
     sharesMemory c4View a4Example.2 = true ∧
     toFlat c4Aug a4Example.2 = [0, -2, -4, -6, 4, 5, 6, 7, 8, 9, 10, 11]) := by
  decide

/-- C6: a list index triggers advanced indexing even where the tuple of the
same integers is basic: `x[(1, -1)]` returns the single element at row 1,
last column (the value 8), while `x[[1, -1]]` returns a fresh shape-(2, 4)
array holding copies of row 1 and the last row, sharing no memory with `x`. -/
theorem c6_list_index_vs_tuple_index :
    getItem xExample.1 xExample.2 [.int 1, .int (-1)] = some (.scalar 8) ∧
    (advIntIndex xExample.1 xExample.2 [1, -1]).map
        (fun hr => (toFlat hr.1 hr.2, hr.2.shape, sharesMemory hr.2 xExample.2)) =
      some ([-1, 9, 3, 8, -3, -3, 4, 6], [2, 4], false) := by
  decide

/-- C7: the assignments `p[0, ::2] = (-40, -50)` and `p[1:, 2:] = -1` change
exactly the targeted elements — row 0 columns 0 and 2 become -40 and -50,
rows 1-2 columns 2-3 become -1, everything else keeps its prior value — and
the view `q = p[0, :]` reflects the row-0 changes since it still views the
same data. -/
theorem c7_subview_assignment_exact :
    toFlat pExample.1 qView = [0, 1, 2, 3] ∧
    toFlat pAfter pExample.2 = [-40, 1, -50, 3, 4, 5, -1, -1, 8, 9, -1, -1] ∧
    toFlat pAfter qView = [-40, 1, -50, 3] ∧
    sharesMemory qView pExample.2 = true := by
  decide

/-- C9: multi-index syntax is tuple packing — `x[i, j]` and `x[i, j, k]`
denote exactly `x[(i, j)]` and `x[(i, j, k)]`; concretely, `x[1, -1]` equals
`x[(1, -1)]` (both 8) and `x[:2, :3]` equals
`x[(slice(None, 2), slice(None, 3))]` (both the upper-left 2×3 subarray). -/
theorem c9_multi_index_is_tuple_packing :
    (∀ (h : Heap) (v : NDArray) (i j : IndexItem),
        getItemMulti2 h v i j = getItem h v [i, j]) ∧
    (∀ (h : Heap) (v : NDArray) (i j k : IndexItem),
        getItemMulti3 h v i j k = getItem h v [i, j, k]) ∧
    getItemMulti2 xExample.1 xExample.2 (.int 1) (.int (-1)) =
      some (.scalar 8) ∧
    getItem xExample.1 xExample.2 [.int 1, .int (-1)] = some (.scalar 8) ∧
    (getItemMulti2 xExample.1 xExample.2 (.slice none (some 2) none)
          (.slice none (some 3) none)).map
        (fun r => toFlat xExample.1 (viewOf (some r))) =
      some [-5, 2, 0, -1, 9, 3] ∧
    (getItem xExample.1 xExample.2
          [.slice none (some 2) none, .slice none (some 3) none]).map
        (fun r => toFlat xExample.1 (viewOf (some r))) =
      some [-5, 2, 0, -1, 9, 3] :=
  ⟨fun _ _ _ _ => rfl, fun _ _ _ _ _ => rfl,
    by decide, by decide, by decide, by decide⟩

/-- C10: `add_3` returns an array whose every element is the corresponding
input element plus 3; the result does not share memory with the argument and
the caller's array is left unchanged, because the input is copied before the
in-place augmentation. -/
theorem c10_add3_copies_input (h : Heap) (x : NDArray)
    (hbuf : x.buf < h.bufs.length) :
    toFlat (add_3 h x).1 (add_3 h x).2 = (toFlat h x).map (· + 3) ∧
    sharesMemory (add_3 h x).2 x = false ∧
    toFlat (add_3 h x).1 x = toFlat h x := by
  have hlen : (toFlat h x).length = x.shape.prod := by
    rw [length_toFlat, length_addrList]
  have hcflat : toFlat (npCopy h x).1 (npCopy h x).2 = toFlat h x :=
    toFlat_npAlloc_self h (toFlat h x) x.shape hlen
  have hvalid : ValidView (npCopy h x).1 (npCopy h x).2 :=
    validView_npAlloc h (toFlat h x) x.shape hlen
  have hbufne : (npCopy h x).2.buf ≠ x.buf := by
    show h.bufs.length ≠ x.buf
    omega
  refine ⟨?_, ?_, ?_⟩
  · show toFlat (writeView (npCopy h x).1 (npCopy h x).2
        ((toFlat (npCopy h x).1 (npCopy h x).2).map (· + 3))) (npCopy h x).2 = _
    rw [toFlat_writeView_self _ _ _ hvalid
        (by rw [List.length_map, length_toFlat]), hcflat]
  · show ((npCopy h x).2.buf == x.buf) = false
    exact beq_eq_false_iff_ne.mpr hbufne
  · show toFlat (writeView (npCopy h x).1 (npCopy h x).2
        ((toFlat (npCopy h x).1 (npCopy h x).2).map (· + 3))) x = _
    rw [toFlat_writeView_of_ne_buf _ _ _ _ (fun hh => hbufne hh.symm)]
    exact toFlat_alloc_old h (toFlat h x) x.shape x hbuf

/-- Witness for C10: `add_3` applied to the notebook's `np.array([0, 1, 2])`. -/
theorem c10_witness :
    toFlat (add_3 xSmall.1 xSmall.2).1 (add_3 xSmall.1 xSmall.2).2 =
      (toFlat xSmall.1 xSmall.2).map (· + 3) ∧
    sharesMemory (add_3 xSmall.1 xSmall.2).2 xSmall.2 = false ∧
    toFlat (add_3 xSmall.1 xSmall.2).1 xSmall.2 = toFlat xSmall.1 xSmall.2 :=
  c10_add3_copies_input xSmall.1 xSmall.2 (by decide)

/-- C2: advanced indexing — an integer-list index, or a boolean mask such as
`x[x < 0]` — produces a copy of the accessed data in a freshly allocated
buffer: the result does not share memory with `x`, mutating the result
leaves `x`'s values unchanged, and mutating `x` leaves the result's values
unchanged. -/
theorem c2_advanced_indexing_copies (h : Heap) (v : NDArray)
    (hbuf : v.buf < h.bufs.length) :
    (∀ ixs h' r rows, advIntIndex h v ixs = some (h', r) →
        mapOptList (subViewRow v) ixs = some rows →
        sharesMemory r v = false ∧
        toFlat h' r = (rows.map (toFlat h)).flatten ∧
        (∀ vals, toFlat (writeView h' r vals) v = toFlat h v) ∧
        (∀ vals, toFlat (writeView h' v vals) r = toFlat h' r)) ∧
    (∀ p : Int → Bool,
        sharesMemory (advBoolIndex h v p).2 v = false ∧
        toFlat (advBoolIndex h v p).1 (advBoolIndex h v p).2 =
          (toFlat h v).filter p ∧
        (∀ vals,
          toFlat (writeView (advBoolIndex h v p).1 (advBoolIndex h v p).2 vals) v =
            toFlat h v) ∧
        (∀ vals,
          toFlat (writeView (advBoolIndex h v p).1 v vals) (advBoolIndex h v p).2 =
            toFlat (advBoolIndex h v p).1 (advBoolIndex h v p).2)) := by
  constructor
  · intro ixs h' r rows hadv hrows
    unfold advIntIndex at hadv
    split at hadv
    · exact absurd hadv (by simp)
    · rw [hrows, Option.map_some'] at hadv
      have hpair := Option.some_inj.mp hadv
      have hh' : h' =
          (npAlloc h ((rows.map (toFlat h)).flatten) (ixs.length :: v.shape.tail)).1 := by
        rw [hpair]
      have hr : r =
          (npAlloc h ((rows.map (toFlat h)).flatten) (ixs.length :: v.shape.tail)).2 := by
        rw [hpair]
      subst hh' hr
      have hrowlen : ∀ w ∈ rows, (toFlat h w).length = v.shape.tail.prod := by
        intro w hw
        obtain ⟨a, -, ha⟩ := mapOptList_some_mem (subViewRow v) ixs rows hrows w hw
        rw [length_toFlat, length_addrList, (subViewRow_shape v a w ha).1]
      have hdata : ((rows.map (toFlat h)).flatten).length =
          (ixs.length :: v.shape.tail).prod := by
        rw [length_flatten_toFlat h rows _ hrowlen,
          mapOptList_some_length (subViewRow v) ixs rows hrows, List.prod_cons]
      have hfresh : (npAlloc h ((rows.map (toFlat h)).flatten)
          (ixs.length :: v.shape.tail)).2.buf ≠ v.buf := by
        show h.bufs.length ≠ v.buf
        omega
      refine ⟨beq_eq_false_iff_ne.mpr hfresh, toFlat_npAlloc_self _ _ _ hdata, ?_, ?_⟩
      · intro vals
        rw [toFlat_writeView_of_ne_buf _ _ _ _ (fun hh => hfresh hh.symm)]
        exact toFlat_alloc_old h _ _ v hbuf
      · intro vals
        rw [toFlat_writeView_of_ne_buf _ _ _ _ hfresh]
  · intro p
    have hdata : ((toFlat h v).filter p).length =
        ([((toFlat h v).filter p).length] : List Nat).prod := by
      rw [List.prod_singleton]
    have hfresh : (advBoolIndex h v p).2.buf ≠ v.buf := by
      show h.bufs.length ≠ v.buf
      omega
    refine ⟨beq_eq_false_iff_ne.mpr hfresh, toFlat_npAlloc_self _ _ _ hdata, ?_, ?_⟩
    · intro vals
      rw [toFlat_writeView_of_ne_buf _ _ _ _ (fun hh => hfresh hh.symm)]
      exact toFlat_alloc_old h _ _ v hbuf
    · intro vals
      rw [toFlat_writeView_of_ne_buf _ _ _ _ hfresh]

/-- Witness for C2: the notebook's `x[x < 0]` on the 3×4 array `x` — the
copy holds the negative elements and shares no memory with `x`. -/
theorem c2_witness :
    sharesMemory (advBoolIndex xExample.1 xExample.2 (· < 0)).2 xExample.2 = false ∧
    toFlat (advBoolIndex xExample.1 xExample.2 (· < 0)).1
        (advBoolIndex xExample.1 xExample.2 (· < 0)).2 = [-5, -7, -1, -3, -3] := by
  have hc := (c2_advanced_indexing_copies xExample.1 xExample.2 (by decide)).2 (· < 0)
  exact ⟨hc.1, by rw [hc.2.1]; decide⟩

/-- C5: a NumPy elementwise mathematical function with value map `f`, called
with `out = a`, writes its result into the caller-supplied buffer of `a`, so
`a` — and every view `b` of the same elements of that buffer — subsequently
reads the mapped values; called without `out`, it creates a distinct array
holding the mapped values, shares no memory with `a`, and leaves `a`'s data
unaffected. -/
theorem c5_ufunc_out_writes_in_place (f : Int → Int) (h : Heap) (a b : NDArray)
    (hval : ValidView h a) (hbuf : a.buf < h.bufs.length)
    (hbv : b.buf = a.buf ∧ b.addrList = a.addrList) :
    ((npUfunc f h a (some a)).2 = a ∧
     toFlat (npUfunc f h a (some a)).1 a = (toFlat h a).map f ∧
     toFlat (npUfunc f h a (some a)).1 b = (toFlat h a).map f) ∧
    (sharesMemory (npUfunc f h a none).2 a = false ∧
     toFlat (npUfunc f h a none).1 (npUfunc f h a none).2 = (toFlat h a).map f ∧
     toFlat (npUfunc f h a none).1 a = toFlat h a) := by
  have hw : toFlat (writeView h a ((toFlat h a).map f)) a = (toFlat h a).map f :=
    toFlat_writeView_self h a _ hval (by rw [List.length_map, length_toFlat])
  refine ⟨⟨rfl, hw, ?_⟩, ?_, ?_, ?_⟩
  · show toFlat (writeView h a ((toFlat h a).map f)) b = _
    have hba : toFlat (writeView h a ((toFlat h a).map f)) b =
        toFlat (writeView h a ((toFlat h a).map f)) a := by
      unfold toFlat
      rw [hbv.1, hbv.2]
    rw [hba]
    exact hw
  · show ((npAlloc h ((toFlat h a).map f) a.shape).2.buf == a.buf) = false
    exact beq_eq_false_iff_ne.mpr (by show h.bufs.length ≠ a.buf; omega)
  · exact toFlat_npAlloc_self h _ a.shape
      (by rw [List.length_map, length_toFlat, length_addrList])
  · exact toFlat_alloc_old h _ a.shape a hbuf

/-- Witness for C5: the notebook's `np.exp(a, out=a)` scenario with `a` the
5-element array and `b = a[:]` its full view, with value map `(· + 1)`. -/
theorem c5_witness :
    ((npUfunc (· + 1) aExample.1 aExample.2 (some aExample.2)).2 = aExample.2 ∧
     toFlat (npUfunc (· + 1) aExample.1 aExample.2 (some aExample.2)).1 aExample.2 =
       (toFlat aExample.1 aExample.2).map (· + 1) ∧
     toFlat (npUfunc (· + 1) aExample.1 aExample.2 (some aExample.2)).1 bView =
       (toFlat aExample.1 aExample.2).map (· + 1)) ∧
    (sharesMemory (npUfunc (· + 1) aExample.1 aExample.2 none).2 aExample.2 = false ∧
     toFlat (npUfunc (· + 1) aExample.1 aExample.2 none).1
         (npUfunc (· + 1) aExample.1 aExample.2 none).2 =
       (toFlat aExample.1 aExample.2).map (· + 1) ∧
     toFlat (npUfunc (· + 1) aExample.1 aExample.2 none).1 aExample.2 =
       toFlat aExample.1 aExample.2) :=
  c5_ufunc_out_writes_in_place (· + 1) aExample.1 aExample.2 bView
    (by decide) (by decide) (by decide)

theorem applyItems_int (i : Int) (rest : List IndexItem) (d : Nat)
    (ds : List Nat) (s : Int) (ss : List Int) (h0 : 0 ≤ i) (h1 : i < (d : Int)) :
    applyItems (.int i :: rest) (d :: ds) (s :: ss) =
      (applyItems rest ds ss).map (fun t => (i * s + t.1, t.2.1, t.2.2)) := by
  show (if 0 ≤ (if i < 0 then i + d else i) ∧ (if i < 0 then i + d else i) < d then
      (applyItems rest ds ss).map
        (fun t => ((if i < 0 then i + d else i) * s + t.1, t.2.1, t.2.2))
    else none) = _
  rw [if_neg (show ¬ i < 0 by omega), if_pos ⟨h0, h1⟩]

/-- C8: basic indexing a 2-dimensional array with an in-range integer for
each dimension yields the single stored number — a value read out of the
buffer, not a view — and such a number never shares memory with any array,
so mutating the parent afterwards cannot change it. -/
theorem c8_full_integer_index_is_scalar (h : Heap) (v : NDArray)
    (i j : Int) (d0 d1 : Nat) (s0 s1 : Int)
    (hsh : v.shape = [d0, d1]) (hst : v.strides = [s0, s1])
    (hi0 : 0 ≤ i) (hi1 : i < (d0 : Int)) (hj0 : 0 ≤ j) (hj1 : j < (d1 : Int)) :
    getItem h v [.int i, .int j] =
      some (.scalar (readAddr h v.buf (v.offset + (i * s0 + j * s1)))) ∧
    ∀ (s : Int) (w : NDArray), sharesMemoryR (.scalar s) (.view w) = false := by
  refine ⟨?_, fun s w => rfl⟩
  unfold getItem
  rw [hsh, hst]
  have hc1 : List.countP isEllipsis [IndexItem.int i, IndexItem.int j] = 0 := rfl
  have hc2 : List.countP consumesAxis [IndexItem.int i, IndexItem.int j] = 2 := rfl
  have hcond : ¬ (1 < List.countP isEllipsis [IndexItem.int i, IndexItem.int j] ∨
      ([d0, d1] : List Nat).length <
        List.countP consumesAxis [IndexItem.int i, IndexItem.int j]) := by
    rw [hc1, hc2]
    simp
  rw [if_neg hcond]
  have he : expandIx [IndexItem.int i, IndexItem.int j]
      (([d0, d1] : List Nat).length) = [IndexItem.int i, IndexItem.int j] := rfl
  rw [he, applyItems_int i [IndexItem.int j] d0 [d1] s0 [s1] hi0 hi1,
    applyItems_int j [] d1 [] s1 [] hj0 hj1]
  show some (mkResult h v (i * s0 + (j * s1 + 0), [], [])) = _
  rw [mkResult]
  rw [show i * s0 + (j * s1 + 0) = i * s0 + j * s1 from by ring]

/-- Witness for C8: the notebook's `z[0, 0]` — the extracted number is the
stored element and shares no memory with `z`. -/
theorem c8_witness :
    getItem zExample.1 zExample.2 [.int 0, .int 0] =
      some (.scalar (readAddr zExample.1 zExample.2.buf
        (zExample.2.offset + (0 * 3 + 0 * 1)))) ∧
    ∀ (s : Int) (w : NDArray), sharesMemoryR (.scalar s) (.view w) = false :=
  c8_full_integer_index_is_scalar zExample.1 zExample.2 0 0 3 3 3 1
    (by decide) (by decide) (by decide) (by decide) (by decide) (by decide)

end BasicIndexing
